import Mathlib

/-!
Verification of the MLN / MaxWalkSat inference engine (srli/inference/mln.py).

The Python source is shallowly embedded below:
* real-valued quantities (weights, coefficients, constants, truth values) are
  modelled as `ℚ` — every operation the code performs on them (sums of ±1
  coefficients times 0/1 values, comparisons, `1.0 - v` flips) is exact;
* Python dicts become association lists, dict/list accesses that can raise
  (`KeyError` / `IndexError`) and the `assert` in `GroundRule.__init__`
  become `Option`-valued functions returning `none` on failure;
* the random stream consumed by the solver is abstracted as an oracle
  parameter (a function supplying each attempt's outcome, or each draw).
-/

namespace MLN

/-- Sentinel weight substituted when a rule's configured weight is `None`
(`HARD_WEIGHT = 1000.0` in the source). -/
def hardWeight : ℚ := 1000

/-- External relation data as consumed by the engine: arity, ordered observed
rows (argument columns plus an optional trailing truth value), ordered
unobserved rows, and an optional negative-prior probability. Rows are lists
of rationals; only the row length and the trailing value matter to the
engine. -/
structure Relation where
  arity : Nat
  observed : List (List ℚ)
  unobserved : List (List ℚ)
  negPrior : Option ℚ
deriving Repr, DecidableEq

/-- Number of ground atoms a relation contributes to the flat index space
(observed plus unobserved rows), as in `relation_counts`. -/
def relCount (rel : Relation) : Nat :=
  rel.observed.length + rel.unobserved.length

/-- Total size of the flat atom-index space over all relations. -/
def totalCount (relations : List Relation) : Nat :=
  (relations.map relCount).sum

/-- One raw ground rule as produced by the external grounding collaborator:
atom indices, matching coefficients, constant, operator tag and originating
rule index. -/
structure RawGroundRule where
  ruleIndex : Nat
  atoms : List Nat
  coefficients : List ℚ
  constant : ℚ
  operator : String
deriving Repr, DecidableEq

/-- A compiled ground rule (`GroundRule` in the source): resolved weight,
retained unobserved atoms and their coefficients, folded constant and the
operator tag. -/
structure GroundRule where
  weight : ℚ
  atoms : List Nat
  coefficients : List ℚ
  constant : ℚ
  operator : String
deriving Repr, DecidableEq

/-- The constructor guard of `GroundRule.__init__`: the `assert` rejects any
operator other than the disjunction `"|"` and the equality `"="`; a failed
assertion is modelled as `none`. -/
def mkGroundRule (weight : ℚ) (atoms : List Nat) (coefficients : List ℚ)
    (constant : ℚ) (operator : String) : Option GroundRule :=
  if operator = "|" ∨ operator = "=" then
    some ⟨weight, atoms, coefficients, constant, operator⟩
  else
    none

/-- Scan of `GroundRule._loss_logical`: walk the (atom, coefficient) pairs in
order and return 0 at the first literal whose truth value matches its
coefficient's polarity, 1 if none does. -/
def lossLogicalGo (vals : Nat → ℚ) : List (Nat × ℚ) → ℚ
  | [] => 1
  | (a, c) :: rest =>
      if (c = -1 ∧ vals a = 1) ∨ (c = 1 ∧ vals a = 0) then 0
      else lossLogicalGo vals rest

/-- Raw loss of a disjunctive rule (`GroundRule._loss_logical`). -/
def GroundRule.lossLogical (r : GroundRule) (vals : Nat → ℚ) : ℚ :=
  lossLogicalGo vals (r.atoms.zip r.coefficients)

/-- Running sum of `coefficient * value` over the rule's atoms, as in
`GroundRule._loss_arithmetic`. -/
def zipSum (vals : Nat → ℚ) : List (Nat × ℚ) → ℚ
  | [] => 0
  | (a, c) :: rest => c * vals a + zipSum vals rest

/-- Raw loss of an equality/arithmetic rule (`GroundRule._loss_arithmetic`):
0 when the weighted sum hits the constant exactly, 1 otherwise. -/
def GroundRule.lossArithmetic (r : GroundRule) (vals : Nat → ℚ) : ℚ :=
  if zipSum vals (r.atoms.zip r.coefficients) = r.constant then 0 else 1

/-- Weighted loss of a compiled rule (`GroundRule.loss`): dispatch on the
operator tag, then scale the raw loss by the weight. -/
def GroundRule.loss (r : GroundRule) (vals : Nat → ℚ) : ℚ :=
  r.weight * (if r.operator = "|" then r.lossLogical vals else r.lossArithmetic vals)

/-- Truth-table helper: the assignment sending atom 0 to `x`, atom 1 to `y`
and every other atom to 0. -/
def valsOf (x y : ℚ) : Nat → ℚ :=
  fun a => if a = 0 then x else if a = 1 then y else 0

lemma lossLogicalGo_zero (vals : Nat → ℚ) (l : List (Nat × ℚ))
    (h : ∃ p ∈ l, (p.2 = -1 ∧ vals p.1 = 1) ∨ (p.2 = 1 ∧ vals p.1 = 0)) :
    lossLogicalGo vals l = 0 := by
  induction l with
  | nil => simp at h
  | cons hd tl ih =>
      obtain ⟨a, c⟩ := hd
      rw [lossLogicalGo]
      by_cases hc : (c = -1 ∧ vals a = 1) ∨ (c = 1 ∧ vals a = 0)
      · rw [if_pos hc]
      · rw [if_neg hc]
        obtain ⟨p, hp, hm⟩ := h
        rcases List.mem_cons.mp hp with rfl | hp'
        · exact absurd hm hc
        · exact ih ⟨p, hp', hm⟩

lemma lossLogicalGo_one (vals : Nat → ℚ) (l : List (Nat × ℚ))
    (h : ∀ p ∈ l, ¬ ((p.2 = -1 ∧ vals p.1 = 1) ∨ (p.2 = 1 ∧ vals p.1 = 0))) :
    lossLogicalGo vals l = 1 := by
  induction l with
  | nil => rfl
  | cons hd tl ih =>
      obtain ⟨a, c⟩ := hd
      rw [lossLogicalGo, if_neg (h (a, c) (List.mem_cons_self _ _))]
      exact ih fun p hp => h p (List.mem_cons_of_mem _ hp)

/-- C2: for a compiled disjunctive rule and an assignment of 0/1 values to its
atoms, the raw loss is 0 when some atom paired with its coefficient has
coefficient −1 and value 1 or coefficient +1 and value 0, and 1 when no atom
does; the returned loss is the rule's weight times this raw loss. -/
theorem disjunction_loss_spec (r : GroundRule) (vals : Nat → ℚ)
    (hop : r.operator = "|")
    (hv : ∀ a ∈ r.atoms, vals a = 0 ∨ vals a = 1) :
    ((∃ p ∈ r.atoms.zip r.coefficients,
        (p.2 = -1 ∧ vals p.1 = 1) ∨ (p.2 = 1 ∧ vals p.1 = 0)) →
      r.lossLogical vals = 0) ∧
    ((∀ p ∈ r.atoms.zip r.coefficients,
        ¬ ((p.2 = -1 ∧ vals p.1 = 1) ∨ (p.2 = 1 ∧ vals p.1 = 0))) →
      r.lossLogical vals = 1) ∧
    r.loss vals = r.weight * r.lossLogical vals := by
  refine ⟨lossLogicalGo_zero vals _, lossLogicalGo_one vals _, ?_⟩
  rw [GroundRule.loss, if_pos hop]

/-- C2 witness: the characterization applied to the concrete clause `A ∨ ¬B`
with weight 2 at the assignment A=1, B=0, where no literal matches its
coefficient's polarity, so the raw loss is 1 and the weighted loss is 2. -/
theorem disjunction_loss_spec_wit :
    (⟨2, [0, 1], [1, -1], 0, "|"⟩ : GroundRule).lossLogical (valsOf 1 0) = 1 ∧
    (⟨2, [0, 1], [1, -1], 0, "|"⟩ : GroundRule).loss (valsOf 1 0) =
      (⟨2, [0, 1], [1, -1], 0, "|"⟩ : GroundRule).weight *
        (⟨2, [0, 1], [1, -1], 0, "|"⟩ : GroundRule).lossLogical (valsOf 1 0) := by
  have h := disjunction_loss_spec ⟨2, [0, 1], [1, -1], 0, "|"⟩ (valsOf 1 0) rfl
    (by intro a ha; fin_cases ha <;> simp [valsOf])
  refine ⟨h.2.1 ?_, h.2.2⟩
  intro p hp
  fin_cases hp <;> simp [valsOf] <;> norm_num

/-- C3 counterexample: for the compiled disjunctive rule with coefficients
[+1, −1] and weight 1, the claim predicts loss = weight at A=0, B=1, but the
code's loss there is 0 (the literal with coefficient +1 and truth 0 already
satisfies the clause), and 0 ≠ 1 = weight. -/
theorem disjunction_table_cex :
    (⟨1, [0, 1], [1, -1], 0, "|"⟩ : GroundRule).loss (valsOf 0 1) = 0 ∧
    (⟨1, [0, 1], [1, -1], 0, "|"⟩ : GroundRule).weight = 1 ∧
    ¬ ((⟨1, [0, 1], [1, -1], 0, "|"⟩ : GroundRule).loss (valsOf 0 1) =
        (⟨1, [0, 1], [1, -1], 0, "|"⟩ : GroundRule).weight) := by
  refine ⟨?_, rfl, ?_⟩ <;>
    simp [GroundRule.loss, GroundRule.lossLogical, lossLogicalGo, valsOf]

/-- C3 amended: for the compiled disjunctive rule over atoms A, B with
coefficients [+1, −1] and any weight w, the loss is 0 at (A=0, B=1), w at
(A=1, B=0), 0 at (A=0, B=0) and 0 at (A=1, B=1) — i.e. the two middle rows
of the claimed table are swapped. -/
theorem disjunction_table (w k : ℚ) :
    (⟨w, [0, 1], [1, -1], k, "|"⟩ : GroundRule).loss (valsOf 0 1) = 0 ∧
    (⟨w, [0, 1], [1, -1], k, "|"⟩ : GroundRule).loss (valsOf 1 0) = w ∧
    (⟨w, [0, 1], [1, -1], k, "|"⟩ : GroundRule).loss (valsOf 0 0) = 0 ∧
    (⟨w, [0, 1], [1, -1], k, "|"⟩ : GroundRule).loss (valsOf 1 1) = 0 := by
  refine ⟨?_, ?_, ?_, ?_⟩ <;>
    norm_num [GroundRule.loss, GroundRule.lossLogical, lossLogicalGo, valsOf]

/-- C5: for a compiled equality rule and an assignment of 0/1 values to its
atoms, the raw arithmetic loss is 0 exactly when the sum of coefficients
times values equals the folded constant (strict equality) and 1 otherwise,
and the returned loss is weight times raw loss; in particular the rule with
coefficients [+1, −1] and constant 0 has loss 0 at X=1, Y=1 and loss equal
to its weight at X=1, Y=0. -/
theorem arithmetic_loss_spec (r : GroundRule) (vals : Nat → ℚ)
    (hop : r.operator = "=")
    (hv : ∀ a ∈ r.atoms, vals a = 0 ∨ vals a = 1) :
    (r.lossArithmetic vals = 0 ↔ zipSum vals (r.atoms.zip r.coefficients) = r.constant) ∧
    (zipSum vals (r.atoms.zip r.coefficients) ≠ r.constant → r.lossArithmetic vals = 1) ∧
    r.loss vals = r.weight * r.lossArithmetic vals ∧
    (∀ w : ℚ, (⟨w, [0, 1], [1, -1], 0, "="⟩ : GroundRule).loss (valsOf 1 1) = 0 ∧
      (⟨w, [0, 1], [1, -1], 0, "="⟩ : GroundRule).loss (valsOf 1 0) = w) := by
  refine ⟨?_, ?_, ?_, ?_⟩
  · unfold GroundRule.lossArithmetic
    by_cases h : zipSum vals (r.atoms.zip r.coefficients) = r.constant
    · simp [h]
    · simp [h]
  · intro h
    unfold GroundRule.lossArithmetic
    rw [if_neg h]
  · rw [GroundRule.loss, hop, if_neg (by decide)]
  · intro w
    constructor <;>
      simp [GroundRule.loss, GroundRule.lossArithmetic, zipSum, valsOf]

/-- C5 witness: the arithmetic-loss characterization evaluated on the
concrete equality rule X = Y with weight 3 at the assignment X=1, Y=0. -/
theorem arithmetic_loss_spec_wit :
    ((⟨3, [0, 1], [1, -1], 0, "="⟩ : GroundRule).lossArithmetic (valsOf 1 0) = 0 ↔
      zipSum (valsOf 1 0) ([0, 1].zip [(1 : ℚ), -1]) = 0) ∧
    (zipSum (valsOf 1 0) ([0, 1].zip [(1 : ℚ), -1]) ≠ 0 →
      (⟨3, [0, 1], [1, -1], 0, "="⟩ : GroundRule).lossArithmetic (valsOf 1 0) = 1) ∧
    (⟨3, [0, 1], [1, -1], 0, "="⟩ : GroundRule).loss (valsOf 1 0) =
      (⟨3, [0, 1], [1, -1], 0, "="⟩ : GroundRule).weight *
        (⟨3, [0, 1], [1, -1], 0, "="⟩ : GroundRule).lossArithmetic (valsOf 1 0) ∧
    (∀ w : ℚ, (⟨w, [0, 1], [1, -1], 0, "="⟩ : GroundRule).loss (valsOf 1 1) = 0 ∧
      (⟨w, [0, 1], [1, -1], 0, "="⟩ : GroundRule).loss (valsOf 1 0) = w) :=
  arithmetic_loss_spec ⟨3, [0, 1], [1, -1], 0, "="⟩ (valsOf 1 0) rfl
    (by intro a ha; fin_cases ha <;> simp [valsOf])

/-- Resolution loop at the top of `MLN._fetch_atom`: walk the relations in
declaration order, subtracting each relation's atom count from the index
until it falls inside one; returns the relation's position, the relation and
the residual local index. `none` models an index beyond the total count
(which the source would turn into an out-of-range data access); every claim
below stays inside the valid range. -/
def resolveAtom : List Relation → Nat → Option (Nat × Relation × Nat)
  | [], _ => none
  | rel :: rest, index =>
      if index < relCount rel then some (0, rel, index)
      else (resolveAtom rest (index - relCount rel)).map
        (fun q => (q.1 + 1, q.2.1, q.2.2))

/-- Discretization `int(float(v) > 0.0)` applied to a stored truth value. -/
def discretize (x : ℚ) : ℚ := if 0 < x then 1 else 0

/-- Body of `MLN._fetch_atom`: resolve the flat index to a relation, then
report `(observed, value, negative_prior)`. An observed row's value is its
trailing truth value discretized by the strict `> 0.0` threshold when the
row has `arity + 1` entries, else the default 1; an unobserved row reports
its discretized trailing value when present (else no value) and the
relation's negative-prior weight. -/
def fetchAtom (relations : List Relation) (index : Nat) :
    Option (Bool × Option ℚ × Option ℚ) :=
  (resolveAtom relations index).bind fun q =>
    let rel := q.2.1
    let j := q.2.2
    if hobs : j < rel.observed.length then
      let row := rel.observed.get ⟨j, hobs⟩
      let value : ℚ := if row.length = rel.arity + 1 then discretize (row.getLastD 0) else 1
      some (true, some value, none)
    else
      match rel.unobserved.get? (j - rel.observed.length) with
      | none => none
      | some row =>
          let value : Option ℚ :=
            if row.length = rel.arity + 1 then some (discretize (row.getLastD 0)) else none
          some (false, value, rel.negPrior)

/-- Overwrite-or-insert into the `negative_priors` dict. -/
def setNegPrior (m : List (Nat × Option ℚ)) (a : Nat) (p : Option ℚ) :
    List (Nat × Option ℚ) :=
  match m with
  | [] => [(a, p)]
  | (k, v) :: rest => if k = a then (k, p) :: rest else (k, v) :: setNegPrior rest a p

/-- Append a ground-rule index to an atom's entry in the grounding index,
creating the entry if the atom is new (`atom_grounding_map` maintenance). -/
def addAtomRule (m : List (Nat × List Nat)) (a : Nat) (ri : Nat) :
    List (Nat × List Nat) :=
  match m with
  | [] => [(a, [ri])]
  | (k, rs) :: rest => if k = a then (k, rs ++ [ri]) :: rest else (k, rs) :: addAtomRule rest a ri

/-- Accumulated output of `MLN._process_ground_rules`: compiled rules, the
grounding index and the negative-prior map. -/
structure CompileState where
  groundRules : List GroundRule
  atomGroundingMap : List (Nat × List Nat)
  negativePriors : List (Nat × Option ℚ)
deriving Repr, DecidableEq

/-- The empty compile state the processing loop starts from. -/
def initState : CompileState := ⟨[], [], []⟩

/-- Weight resolution for one raw rule: look up the configured weight by the
originating rule index (`none` models the `IndexError` of an out-of-range
index) and substitute the hard-weight sentinel for a `None` entry. -/
def resolveWeight (weights : List (Option ℚ)) (i : Nat) : Option ℚ :=
  (weights.get? i).map (fun w => w.getD hardWeight)

/-- The per-atom loop of `MLN._process_ground_rules` over the zipped
(atom, coefficient) pairs of one raw rule, threading the folded constant and
the negative-prior map. Returns the retained unobserved atoms and
coefficients, the folded constant, the updated priors, and whether the rule
was found trivially satisfied (`skip`): for a disjunction, an observed atom
with coefficient +1 and value 0 or coefficient −1 and value 1 stops the scan
with `skip = true`. A failed atom fetch aborts with `none`. -/
def foldRuleAtoms (relations : List Relation) (operator : String) :
    List (Nat × ℚ) → ℚ → List (Nat × Option ℚ) →
    Option (List Nat × List ℚ × ℚ × List (Nat × Option ℚ) × Bool)
  | [], constant, nps => some ([], [], constant, nps, false)
  | (a, c) :: rest, constant, nps =>
      match fetchAtom relations a with
      | none => none
      | some (observed, optValue, negPrior) =>
          if observed then
            match optValue with
            | none => none
            | some v =>
                if operator = "|" ∧ ((c = 1 ∧ v = 0) ∨ (c = -1 ∧ v = 1)) then
                  some ([], [], constant, nps, true)
                else
                  foldRuleAtoms relations operator rest (constant - c * v) nps
          else
            (foldRuleAtoms relations operator rest constant (setNegPrior nps a negPrior)).map
              (fun q => (a :: q.1, c :: q.2.1, q.2.2))

/-- Processing of one raw ground rule (one iteration of the main loop of
`MLN._process_ground_rules`): resolve the weight, fold the observed atoms,
drop the rule entirely when `skip` is set, otherwise construct the compiled
rule (the constructor may reject the operator), append it and register its
atoms in the grounding index. -/
def processOneRule (relations : List Relation) (weights : List (Option ℚ))
    (st : CompileState) (raw : RawGroundRule) : Option CompileState :=
  match resolveWeight weights raw.ruleIndex with
  | none => none
  | some weight =>
      match foldRuleAtoms relations raw.operator (raw.atoms.zip raw.coefficients)
          raw.constant st.negativePriors with
      | none => none
      | some (atoms, coefficients, constant, nps, skip) =>
          if skip then
            some ⟨st.groundRules, st.atomGroundingMap, nps⟩
          else
            match mkGroundRule weight atoms coefficients constant raw.operator with
            | none => none
            | some gr =>
                let ruleIdx := st.groundRules.length
                some ⟨st.groundRules ++ [gr],
                  atoms.foldl (fun m a => addAtomRule m a ruleIdx) st.atomGroundingMap,
                  nps⟩

/-- `MLN._process_ground_rules`: fold the raw rule stream through
`processOneRule`, propagating any failure. -/
def processGroundRules (relations : List Relation) (weights : List (Option ℚ)) :
    List RawGroundRule → CompileState → Option CompileState
  | [], st => some st
  | raw :: rest, st =>
      (processOneRule relations weights st raw).bind
        (processGroundRules relations weights rest)

/-- Decidable observation that the pair (atom, coefficient) resolves to an
observed atom whose discretized value makes a disjunctive literal trivially
true under the source's convention (coefficient +1 with value 0, or −1 with
value 1). -/
def fetchTrivial (relations : List Relation) (p : Nat × ℚ) : Bool :=
  match fetchAtom relations p.1 with
  | some (true, some v, _) =>
      if (p.2 = 1 ∧ v = 0) ∨ (p.2 = -1 ∧ v = 1) then true else false
  | _ => false

lemma fetchAtom_observed (relations : List Relation) (i : Nat) (ov np : Option ℚ)
    (h : fetchAtom relations i = some (true, ov, np)) :
    (∃ v, ov = some v) ∧ np = none := by
  unfold fetchAtom at h
  match hres : resolveAtom relations i with
  | none => rw [hres] at h; simp at h
  | some q =>
      rw [hres] at h
      simp only [Option.bind_eq_bind, Option.some_bind] at h
      by_cases hobs : q.2.2 < q.2.1.observed.length
      · rw [dif_pos hobs] at h
        simp only [Option.some.injEq, Prod.mk.injEq] at h
        exact ⟨⟨_, h.2.1.symm⟩, h.2.2.symm⟩
      · rw [dif_neg hobs] at h
        match hrow : q.2.1.unobserved.get? (q.2.2 - q.2.1.observed.length) with
        | none => rw [hrow] at h; simp at h
        | some row => rw [hrow] at h; simp at h

lemma foldRuleAtoms_skip (relations : List Relation) (l : List (Nat × ℚ))
    (constant : ℚ) (nps : List (Nat × Option ℚ))
    (hfetch : ∀ p ∈ l, (fetchAtom relations p.1).isSome)
    (htriv : ∃ p ∈ l, fetchTrivial relations p = true) :
    ∃ as cs k nps', foldRuleAtoms relations "|" l constant nps =
      some (as, cs, k, nps', true) := by
  induction l generalizing constant nps with
  | nil => simp at htriv
  | cons hd tl ih =>
      obtain ⟨a, c⟩ := hd
      have hs := hfetch (a, c) (List.mem_cons_self _ _)
      have hftl : ∀ p ∈ tl, (fetchAtom relations p.1).isSome :=
        fun p hp => hfetch p (List.mem_cons_of_mem _ hp)
      match hfa : fetchAtom relations a with
      | none => rw [hfa] at hs; simp at hs
      | some (false, optValue, negPrior) =>
          have hhd : ¬ fetchTrivial relations (a, c) = true := by
            simp [fetchTrivial, hfa]
          have htl : ∃ p ∈ tl, fetchTrivial relations p = true := by
            obtain ⟨p, hp, hm⟩ := htriv
            rcases List.mem_cons.mp hp with rfl | hp'
            · exact absurd hm hhd
            · exact ⟨p, hp', hm⟩
          obtain ⟨as, cs, k, nps', hk⟩ :=
            ih constant (setNegPrior nps a negPrior) hftl htl
          refine ⟨a :: as, c :: cs, k, nps', ?_⟩
          rw [foldRuleAtoms, hfa]
          simp [hk]
      | some (true, optValue, negPrior) =>
          obtain ⟨⟨v, rfl⟩, rfl⟩ := fetchAtom_observed relations a optValue negPrior hfa
          by_cases hcond : (c = 1 ∧ v = 0) ∨ (c = -1 ∧ v = 1)
          · refine ⟨[], [], constant, nps, ?_⟩
            rw [foldRuleAtoms, hfa]
            simp [hcond]
          · have hhd : ¬ fetchTrivial relations (a, c) = true := by
              simp only [fetchTrivial, hfa]
              rw [if_neg hcond]
              simp
            have htl : ∃ p ∈ tl, fetchTrivial relations p = true := by
              obtain ⟨p, hp, hm⟩ := htriv
              rcases List.mem_cons.mp hp with rfl | hp'
              · exact absurd hm hhd
              · exact ⟨p, hp', hm⟩
            obtain ⟨as, cs, k, nps', hk⟩ := ih (constant - c * v) nps hftl htl
            refine ⟨as, cs, k, nps', ?_⟩
            rw [foldRuleAtoms, hfa]
            simp [hcond, hk]

/-- C1 counterexample: one relation with a single observed row of stored
truth value 1, and one raw disjunctive rule over that atom with coefficient
+1 (so the observed literal has coefficient +1 and discretized value 1, the
claimed pruning condition). The compiler keeps the rule: the compiled-rule
list has one entry, not zero. -/
theorem prune_claim_cex :
    (processGroundRules [⟨1, [[5, 1]], [], none⟩] [some 2]
        [⟨0, [0], [1], 0, "|"⟩] initState).map
      (fun st => st.groundRules.length) = some 1 ∧
    ¬ ((processGroundRules [⟨1, [[5, 1]], [], none⟩] [some 2]
        [⟨0, [0], [1], 0, "|"⟩] initState).map
      (fun st => st.groundRules.length) = some 0) := by
  constructor <;> decide

/-- C1 amended: for a raw disjunctive rule containing an observed atom with
coefficient +1 and discretized value 0, or coefficient −1 and discretized
value 1 (the source's actual trivial-satisfaction condition — the claim has
the two value cases swapped), the compiler discards the rule entirely: the
compiled-rule list and the grounding index are left exactly as they were,
whatever state processing had reached. -/
theorem prune_trivial_disjunction (relations : List Relation)
    (weights : List (Option ℚ)) (st : CompileState) (raw : RawGroundRule)
    (hop : raw.operator = "|")
    (hw : (resolveWeight weights raw.ruleIndex).isSome)
    (hfetch : ∀ p ∈ raw.atoms.zip raw.coefficients, (fetchAtom relations p.1).isSome)
    (htriv : ∃ p ∈ raw.atoms.zip raw.coefficients, fetchTrivial relations p = true) :
    ∃ nps, processOneRule relations weights st raw =
      some ⟨st.groundRules, st.atomGroundingMap, nps⟩ := by
  obtain ⟨w, hwv⟩ := Option.isSome_iff_exists.mp hw
  obtain ⟨as, cs, k, nps', hfold⟩ :=
    foldRuleAtoms_skip relations (raw.atoms.zip raw.coefficients) raw.constant
      st.negativePriors hfetch htriv
  refine ⟨nps', ?_⟩
  rw [processOneRule, hwv, hop, hfold]
  simp

/-- C1 witness: the pruning theorem applied to a concrete trivial rule — one
observed atom with stored value 0 (discretized 0) and coefficient +1 —
starting from a nonempty compile state; the rule list and index are
unchanged. -/
theorem prune_trivial_disjunction_wit :
    ∃ nps, processOneRule [⟨1, [[5, 0]], [], none⟩] [some 2]
      ⟨[⟨2, [], [], 0, "|"⟩], [], []⟩ ⟨0, [0], [1], 0, "|"⟩ =
      some ⟨[⟨2, [], [], 0, "|"⟩], [], nps⟩ :=
  prune_trivial_disjunction [⟨1, [[5, 0]], [], none⟩] [some 2]
    ⟨[⟨2, [], [], 0, "|"⟩], [], []⟩ ⟨0, [0], [1], 0, "|"⟩ rfl (by decide)
    (by decide) (by decide)

/-- C6 counterexample: one relation with a single observed row of stored
truth value 2 and an equality rule over that atom with coefficient +1 and
constant 0. The claim says arithmetic rules fold the stored truth value
directly, which would give constant 0 - 1*2 = -2; the code discretizes first
(2 > 0 gives 1) and produces constant -1, and -1 is not 0 - 1*2. -/
theorem fold_value_cex :
    (processGroundRules [⟨1, [[7, 2]], [], none⟩] [some 1]
        [⟨0, [0], [1], 0, "="⟩] initState).map
      (fun st => st.groundRules.map GroundRule.constant) = some [-1] ∧
    ¬ ((-1 : ℚ) = 0 - 1 * 2) := by
  constructor
  · norm_num [processGroundRules, processOneRule, foldRuleAtoms, fetchAtom,
      resolveAtom, relCount, discretize, resolveWeight, mkGroundRule, initState]
  · norm_num

/-- C6 amended: the value folded into a rule's constant for an observed atom
is the discretized one for BOTH operators: an observed row with a trailing
truth value always yields `discretize` of it (strict > 0 threshold) from
`fetchAtom`, a row without one yields the default 1 — and an equality rule's
fold subtracts coefficient times exactly the fetched (discretized) value,
the same value a disjunction's fold uses. -/
theorem fold_value_discretized (relations : List Relation) (index : Nat)
    (r : Nat) (rel : Relation) (j : Nat)
    (hres : resolveAtom relations index = some (r, rel, j))
    (hobs : j < rel.observed.length) :
    (∀ row, rel.observed.get? j = some row →
      fetchAtom relations index =
        some (true, some (if row.length = rel.arity + 1 then discretize (row.getLastD 0) else 1),
          none)) ∧
    (∀ (weights : List (Option ℚ)) (w : ℚ) (st : CompileState) (i : Nat) (c k v : ℚ),
      resolveWeight weights i = some w →
      fetchAtom relations index = some (true, some v, none) →
      processOneRule relations weights st ⟨i, [index], [c], k, "="⟩ =
        some ⟨st.groundRules ++ [⟨w, [], [], k - c * v, "="⟩], st.atomGroundingMap,
          st.negativePriors⟩) := by
  constructor
  · intro row hrow
    have hrow' : rel.observed.get ⟨j, hobs⟩ = row := by
      have hg := List.get?_eq_get hobs
      rw [hg] at hrow
      exact Option.some.inj hrow
    rw [fetchAtom, hres]
    simp only [Option.bind_eq_bind, Option.some_bind]
    rw [dif_pos hobs, hrow']
  · intro weights w st i c k v hwv hfv
    rw [processOneRule, hwv]
    simp only [List.zip_cons_cons, List.zip_nil_left, List.zip_nil_right]
    rw [foldRuleAtoms, hfv]
    have hcond : ¬ ("=" = "|" ∧ ((c = 1 ∧ v = 0) ∨ (c = -1 ∧ v = 1))) := by
      rintro ⟨hx, -⟩; exact absurd hx (by decide)
    simp only [if_true, if_neg hcond]
    rw [foldRuleAtoms]
    simp [mkGroundRule]

/-- C6 witness: the discretization theorem applied to a concrete relation
whose observed row stores the value 2: the fetched value is the discretized
1 (not 2), and the equality-rule fold produces constant 0 - 3*1. -/
theorem fold_value_discretized_wit :
    fetchAtom [⟨1, [[7, 2]], [], none⟩] 0 = some (true, some 1, none) ∧
    processOneRule [⟨1, [[7, 2]], [], none⟩] [some 5] initState ⟨0, [0], [3], 0, "="⟩ =
      some ⟨[⟨5, [], [], 0 - 3 * 1, "="⟩], [], []⟩ := by
  have h := fold_value_discretized [⟨1, [[7, 2]], [], none⟩] 0 0
    ⟨1, [[7, 2]], [], none⟩ 0 rfl (by decide)
  have h1 : fetchAtom [⟨1, [[7, 2]], [], none⟩] 0 = some (true, some 1, none) := by
    rw [h.1 [7, 2] rfl]
    norm_num [discretize]
  refine ⟨h1, ?_⟩
  have h2 := h.2 [some 5] 5 initState 0 3 0 1 rfl h1
  simpa [initState] using h2

/-- Association-list lookup, modelling a Python dict access that yields
`None`-like failure (`KeyError`) as `none`. -/
def lookupVal {α : Type} : List (Nat × α) → Nat → Option α
  | [], _ => none
  | (k, v) :: rest, a => if k = a then some v else lookupVal rest a

/-- Rules incident to an atom according to the grounding index
(`atom_grounding_map[atom_index]`). -/
def incidentRules (m : List (Nat × List Nat)) (a : Nat) : List Nat :=
  (lookupVal m a).getD []

/-- Weighted loss of the rule stored at a given index
(`ground_rules[ground_rule_index].loss(atom_values)`). -/
def ruleLossAt (rules : List GroundRule) (vals : Nat → ℚ) (ri : Nat) : ℚ :=
  match rules.get? ri with
  | some r => r.loss vals
  | none => 0

/-- Sum of the weighted losses of all rules incident to an atom, as computed
by the greedy step's inner loops over `atom_grounding_map[atom_index]`. -/
def incidentLoss (rules : List GroundRule) (m : List (Nat × List Nat))
    (vals : Nat → ℚ) (a : Nat) : ℚ :=
  ((incidentRules m a).map (ruleLossAt rules vals)).sum

/-- One toggle `atom_values[a] = 1.0 - atom_values[a]`. -/
def flipAtom (vals : Nat → ℚ) (a : Nat) : Nat → ℚ :=
  fun x => if x = a then 1 - vals x else vals x

/-- Net effect of flipping one atom: incident loss before the flip minus
incident loss after the flip (`old_atom_loss - new_atom_loss`). -/
def flipDelta (rules : List GroundRule) (m : List (Nat × List Nat))
    (vals : Nat → ℚ) (a : Nat) : ℚ :=
  incidentLoss rules m vals a - incidentLoss rules m (flipAtom vals a) a

/-- The toggle-measure-restore probe of the greedy step: measure the incident
loss, toggle the atom, measure again, toggle back; returns the loss delta
and the assignment after the restoring toggle. -/
def probeDelta (rules : List GroundRule) (m : List (Nat × List Nat))
    (vals : Nat → ℚ) (a : Nat) : ℚ × (Nat → ℚ) :=
  let oldLoss := incidentLoss rules m vals a
  let vals1 := flipAtom vals a
  let newLoss := incidentLoss rules m vals1 a
  (oldLoss - newLoss, flipAtom vals1 a)

/-- The greedy step's scan over the selected clause's atoms: probe each atom
in order, keeping the first atom whose delta strictly exceeds the best so
far (`flip_delta > flip_atom_loss`), threading the assignment through the
probes. -/
def greedyScan (rules : List GroundRule) (m : List (Nat × List Nat)) :
    List Nat → (Nat → ℚ) → Option (Nat × ℚ) → ((Nat → ℚ) × Option (Nat × ℚ))
  | [], vals, best => (vals, best)
  | a :: rest, vals, best =>
      let pd := probeDelta rules m vals a
      let best' : Option (Nat × ℚ) :=
        match best with
        | none => some (a, pd.1)
        | some (b, bd) => if pd.1 > bd then some (a, pd.1) else some (b, bd)
      greedyScan rules m rest pd.2 best'

/-- The whole greedy (non-noise) branch of one flip iteration: scan the
clause's atoms, then permanently flip the selected atom. An empty clause
leaves no selection (`flip_atom_index is None`, a runtime error in the
source), modelled as `none`. -/
def greedyStep (rules : List GroundRule) (m : List (Nat × List Nat))
    (clauseAtoms : List Nat) (vals : Nat → ℚ) : Option (Nat → ℚ) :=
  match greedyScan rules m clauseAtoms vals none with
  | (_, none) => none
  | (vals', some (a, _)) => some (flipAtom vals' a)

/-- Reference fold for the best-pick logic: carry the current best pair and
replace it only on a strictly greater value. -/
def pickBest : (Nat × ℚ) → List (Nat × ℚ) → (Nat × ℚ)
  | best, [] => best
  | (b, bd), (a, d) :: rest => pickBest (if d > bd then (a, d) else (b, bd)) rest

lemma flipAtom_flipAtom (vals : Nat → ℚ) (a : Nat) :
    flipAtom (flipAtom vals a) a = vals := by
  funext x
  unfold flipAtom
  by_cases hx : x = a
  · rw [if_pos hx, if_pos hx]; ring
  · rw [if_neg hx, if_neg hx]

lemma probeDelta_eq (rules : List GroundRule) (m : List (Nat × List Nat))
    (vals : Nat → ℚ) (a : Nat) :
    probeDelta rules m vals a = (flipDelta rules m vals a, vals) := by
  simp [probeDelta, flipDelta, flipAtom_flipAtom]

lemma greedyScan_best (rules : List GroundRule) (m : List (Nat × List Nat)) :
    ∀ (l : List Nat) (vals : Nat → ℚ) (best : Nat × ℚ),
    greedyScan rules m l vals (some best) =
      (vals, some (pickBest best (l.map fun a => (a, flipDelta rules m vals a)))) := by
  intro l
  induction l with
  | nil => intro vals best; rfl
  | cons a rest ih =>
      intro vals best
      obtain ⟨b, bd⟩ := best
      rw [greedyScan, probeDelta_eq, List.map_cons, pickBest]
      by_cases hgt : flipDelta rules m vals a > bd
      · rw [if_pos hgt, if_pos hgt, ih]
      · rw [if_neg hgt, if_neg hgt, ih]

lemma pickBest_mem : ∀ (l : List (Nat × ℚ)) (best : Nat × ℚ),
    pickBest best l ∈ best :: l := by
  intro l
  induction l with
  | nil => intro best; exact List.mem_cons_self _ _
  | cons hd tl ih =>
      intro best
      obtain ⟨b, bd⟩ := best
      obtain ⟨a, d⟩ := hd
      rw [pickBest]
      by_cases hgt : d > bd
      · rw [if_pos hgt]
        rcases List.mem_cons.mp (ih (a, d)) with h | h
        · rw [h]; exact List.mem_cons_of_mem _ (List.mem_cons_self _ _)
        · exact List.mem_cons_of_mem _ (List.mem_cons_of_mem _ h)
      · rw [if_neg hgt]
        rcases List.mem_cons.mp (ih (b, bd)) with h | h
        · rw [h]; exact List.mem_cons_self _ _
        · exact List.mem_cons_of_mem _ (List.mem_cons_of_mem _ h)

lemma pickBest_ge : ∀ (l : List (Nat × ℚ)) (best : Nat × ℚ),
    ∀ p ∈ best :: l, p.2 ≤ (pickBest best l).2 := by
  intro l
  induction l with
  | nil =>
      intro best p hp
      rcases List.mem_cons.mp hp with h | h
      · rw [h, pickBest]
      · simp at h
  | cons hd tl ih =>
      intro best p hp
      obtain ⟨b, bd⟩ := best
      obtain ⟨a, d⟩ := hd
      rw [pickBest]
      by_cases hgt : d > bd
      · rw [if_pos hgt]
        rcases List.mem_cons.mp hp with h | h
        · calc p.2 = bd := by rw [h]
            _ ≤ d := le_of_lt hgt
            _ ≤ _ := ih (a, d) (a, d) (List.mem_cons_self _ _)
        · rcases List.mem_cons.mp h with h' | h'
          · rw [h']
            exact ih (a, d) (a, d) (List.mem_cons_self _ _)
          · exact ih (a, d) p (List.mem_cons_of_mem _ h')
      · rw [if_neg hgt]
        rcases List.mem_cons.mp hp with h | h
        · rw [h]
          exact ih (b, bd) (b, bd) (List.mem_cons_self _ _)
        · rcases List.mem_cons.mp h with h' | h'
          · calc p.2 = d := by rw [h']
              _ ≤ bd := not_lt.mp hgt
              _ ≤ _ := ih (b, bd) (b, bd) (List.mem_cons_self _ _)
          · exact ih (b, bd) p (List.mem_cons_of_mem _ h')

lemma pickBest_first : ∀ (l : List (Nat × ℚ)) (best : Nat × ℚ),
    ∃ pre suf, best :: l = pre ++ pickBest best l :: suf ∧
      ∀ p ∈ pre, p.2 < (pickBest best l).2 := by
  intro l
  induction l with
  | nil =>
      intro best
      exact ⟨[], [], rfl, by intro p hp; simp at hp⟩
  | cons hd tl ih =>
      intro best
      obtain ⟨b, bd⟩ := best
      obtain ⟨a, d⟩ := hd
      rw [pickBest]
      by_cases hgt : d > bd
      · rw [if_pos hgt]
        obtain ⟨pre, suf, hdec, hlt⟩ := ih (a, d)
        refine ⟨(b, bd) :: pre, suf, by rw [List.cons_append, hdec], ?_⟩
        intro p hp
        rcases List.mem_cons.mp hp with rfl | h
        · exact lt_of_lt_of_le hgt (pickBest_ge tl (a, d) (a, d) (List.mem_cons_self _ _))
        · exact hlt p h
      · rw [if_neg hgt]
        obtain ⟨pre, suf, hdec, hlt⟩ := ih (b, bd)
        match pre, hdec with
        | [], hdec =>
            have hbb : pickBest (b, bd) tl = (b, bd) := by
              have := hdec
              simp only [List.nil_append] at this
              exact (List.cons.inj this).1.symm
            refine ⟨[], (a, d) :: tl, ?_, by intro p hp; simp at hp⟩
            rw [hbb, List.nil_append]
        | q :: pre', hdec =>
            have hq : q = (b, bd) ∧ tl = pre' ++ pickBest (b, bd) tl :: suf := by
              rw [List.cons_append] at hdec
              exact ⟨(List.cons.inj hdec).1.symm, (List.cons.inj hdec).2⟩
            refine ⟨(b, bd) :: (a, d) :: pre', suf, ?_, ?_⟩
            · rw [List.cons_append, List.cons_append, ← hq.2]
            · intro p hp
              rcases List.mem_cons.mp hp with rfl | h
              · have := hlt q (List.mem_cons_self _ _)
                rw [hq.1] at this
                exact this
              · rcases List.mem_cons.mp h with rfl | h'
                · have hble := hlt q (List.mem_cons_self _ _)
                  rw [hq.1] at hble
                  exact lt_of_le_of_lt (not_lt.mp hgt) hble
                · exact hlt p (List.mem_cons_of_mem _ h')

lemma map_decomposition {α β : Type} (f : α → β) :
    ∀ (l : List α) (pre : List β) (c : β) (suf : List β),
    l.map f = pre ++ c :: suf →
    ∃ pre' c' suf', l = pre' ++ c' :: suf' ∧ pre'.map f = pre ∧ f c' = c := by
  intro l
  induction l with
  | nil => intro pre c suf h; simp at h
  | cons hd tl ih =>
      intro pre c suf h
      match pre, h with
      | [], h =>
          rw [List.map_cons, List.nil_append] at h
          exact ⟨[], hd, tl, rfl, rfl, (List.cons.inj h).1⟩
      | q :: pre₂, h =>
          rw [List.map_cons, List.cons_append] at h
          obtain ⟨hq, htl⟩ := List.cons.inj h
          obtain ⟨pre', c', suf', hl, hm, hc⟩ := ih pre₂ c suf htl
          exact ⟨hd :: pre', c', suf', by rw [hl, List.cons_append],
            by rw [List.map_cons, hm, hq], hc⟩

/-- C4 counterexample: one equality rule over atoms 0, 1 with coefficients
[+1, +1] and constant 2, current assignment all zeros. Flipping either atom
leaves the incident loss unchanged (both deltas are 0, no positive
reduction exists), yet the greedy step still permanently flips the first
atom: its value changes from 0 to 1. The claim's "flips the single atom
with the strictly largest positive reduction" fails — the code flips the
arg-max atom even when the best reduction is not positive. -/
theorem greedy_flip_cex :
    (greedyStep [⟨1, [0, 1], [1, 1], 2, "="⟩] [(0, [0]), (1, [0])] [0, 1] (valsOf 0 0)).map
      (fun v => v 0) = some 1 ∧
    valsOf 0 0 0 = 0 ∧
    flipDelta [⟨1, [0, 1], [1, 1], 2, "="⟩] [(0, [0]), (1, [0])] (valsOf 0 0) 0 = 0 ∧
    flipDelta [⟨1, [0, 1], [1, 1], 2, "="⟩] [(0, [0]), (1, [0])] (valsOf 0 0) 1 = 0 ∧
    ¬ ((0 : ℚ) < 0) := by
  refine ⟨?_, rfl, ?_, ?_, by norm_num⟩ <;>
    norm_num [greedyStep, greedyScan, probeDelta, incidentLoss, incidentRules,
      lookupVal, ruleLossAt, GroundRule.loss, GroundRule.lossArithmetic, zipSum,
      flipAtom, flipDelta, valsOf, show ("=" : String) ≠ "|" from by decide]

/-- C4 amended: in a greedy step over a nonempty selected clause, the probe
for each atom computes the sum of weighted losses of the rules incident to
it (through the grounding index) before the flip minus after, and the
toggle-toggle-back probing leaves the assignment unchanged; the step then
permanently flips exactly one atom of the clause whose delta is greatest
among all atoms of the clause, and every atom strictly earlier in the
clause's atom list has a strictly smaller delta (the strict-greater
comparison keeps the earliest on ties). The flipped atom's reduction need
not be positive. -/
theorem greedy_step_spec (rules : List GroundRule) (m : List (Nat × List Nat))
    (clauseAtoms : List Nat) (vals : Nat → ℚ) (hne : clauseAtoms ≠ []) :
    (∀ a, flipAtom (flipAtom vals a) a = vals) ∧
    (∀ a, probeDelta rules m vals a =
      (incidentLoss rules m vals a - incidentLoss rules m (flipAtom vals a) a, vals)) ∧
    (greedyScan rules m clauseAtoms vals none).1 = vals ∧
    (∃ a pre suf, clauseAtoms = pre ++ a :: suf ∧
      greedyStep rules m clauseAtoms vals = some (flipAtom vals a) ∧
      (∀ b ∈ clauseAtoms, flipDelta rules m vals b ≤ flipDelta rules m vals a) ∧
      (∀ b ∈ pre, flipDelta rules m vals b < flipDelta rules m vals a)) := by
  obtain ⟨a0, rest, rfl⟩ := List.exists_cons_of_ne_nil hne
  have hscan : greedyScan rules m (a0 :: rest) vals none =
      (vals, some (pickBest (a0, flipDelta rules m vals a0)
        (rest.map fun a => (a, flipDelta rules m vals a)))) := by
    rw [greedyScan, probeDelta_eq]
    exact greedyScan_best rules m rest vals _
  refine ⟨flipAtom_flipAtom vals, fun a => probeDelta_eq rules m vals a,
    by rw [hscan], ?_⟩
  set f : Nat → Nat × ℚ := fun a => (a, flipDelta rules m vals a) with hf
  set c := pickBest (f a0) (rest.map f) with hc
  obtain ⟨pre, suf, hdec, hlt⟩ := pickBest_first (rest.map f) (f a0)
  have hdec' : (a0 :: rest).map f = pre ++ c :: suf := by
    rw [List.map_cons]; exact hdec
  obtain ⟨pre', a, suf', hsplit, hpremap, hfa⟩ :=
    map_decomposition f (a0 :: rest) pre c suf hdec'
  have hc1 : c.1 = a := by rw [← hfa]
  have hc2 : c.2 = flipDelta rules m vals a := by rw [← hfa]
  refine ⟨a, pre', suf', hsplit, ?_, ?_, ?_⟩
  · rw [greedyStep, hscan]
    show some (flipAtom vals c.1) = some (flipAtom vals a)
    rw [hc1]
  · intro b hb
    have hfb : f b ∈ f a0 :: rest.map f := by
      rcases List.mem_cons.mp hb with h | h
      · rw [h]; exact List.mem_cons_self _ _
      · exact List.mem_cons_of_mem _ (List.mem_map_of_mem f h)
    have := pickBest_ge (rest.map f) (f a0) (f b) hfb
    rw [← hc, hc2] at this
    exact this
  · intro b hb
    have hfb : f b ∈ pre := by
      rw [← hpremap]; exact List.mem_map_of_mem f hb
    have := hlt (f b) hfb
    rw [← hc, hc2] at this
    exact this

/-- C4 witness: the greedy-step theorem applied to the one-rule, one-atom
clause instance (clause atoms [0], assignment all zeros): the step flips an
atom of the clause with the maximal delta. -/
theorem greedy_step_spec_wit :
    (([0] : List Nat) ≠ []) ∧
    (∃ a pre suf, ([0] : List Nat) = pre ++ a :: suf ∧
      greedyStep [⟨1, [0], [1], 0, "|"⟩] [(0, [0])] [0] (valsOf 0 0) =
        some (flipAtom (valsOf 0 0) a) ∧
      (∀ b ∈ ([0] : List Nat),
        flipDelta [⟨1, [0], [1], 0, "|"⟩] [(0, [0])] (valsOf 0 0) b ≤
          flipDelta [⟨1, [0], [1], 0, "|"⟩] [(0, [0])] (valsOf 0 0) a) ∧
      (∀ b ∈ pre,
        flipDelta [⟨1, [0], [1], 0, "|"⟩] [(0, [0])] (valsOf 0 0) b <
          flipDelta [⟨1, [0], [1], 0, "|"⟩] [(0, [0])] (valsOf 0 0) a)) :=
  ⟨by decide,
    (greedy_step_spec [⟨1, [0], [1], 0, "|"⟩] [(0, [0])] [0] (valsOf 0 0)
      (by decide)).2.2.2⟩

/-- The best-result update of one try in `MLN.solve`: the attempt's outcome
`att i` replaces the retained best only when no best exists yet or its loss
is strictly smaller than the best loss. -/
def updateBest (att : Nat → List (Nat × ℚ) × ℚ) (i : Nat) :
    Option (List (Nat × ℚ) × ℚ × Nat) → Option (List (Nat × ℚ) × ℚ × Nat)
  | none => some ((att i).1, (att i).2, i)
  | some (bv, bl, ba) =>
      if (att i).2 < bl then some ((att i).1, (att i).2, i) else some (bv, bl, ba)

/-- The try loop of `MLN.solve`, abstracted over the attempt outcomes: `att i`
is the (assignment, total loss) pair attempt number `i` would produce (the
random stream is part of this abstraction). The loop runs attempts
`i, i+1, ...` while tries remain, updates the retained best after each
attempt, and breaks right after an attempt with loss 0. -/
def runTriesFrom (att : Nat → List (Nat × ℚ) × ℚ) :
    Nat → Nat → Option (List (Nat × ℚ) × ℚ × Nat) → Option (List (Nat × ℚ) × ℚ × Nat)
  | _, 0, best => best
  | i, tries + 1, best =>
      if (att i).2 = 0 then updateBest att i best
      else runTriesFrom att (i + 1) tries (updateBest att i best)

/-- The full `for attempt in range(1, max_tries + 1)` loop of `MLN.solve`. -/
def runTries (att : Nat → List (Nat × ℚ) × ℚ) (maxTries : Nat) :
    Option (List (Nat × ℚ) × ℚ × Nat) :=
  runTriesFrom att 1 maxTries none

/-- Loop invariant of the retained best before attempt `i` runs: either no
attempt has run yet (`i = 1`), or the best holds the outcome of the earliest
attempt achieving the minimum loss over attempts `1 .. i-1`. -/
def bestInv (att : Nat → List (Nat × ℚ) × ℚ) (i : Nat) :
    Option (List (Nat × ℚ) × ℚ × Nat) → Prop
  | none => i = 1
  | some (bv, bl, ba) => (bv, bl) = att ba ∧ 1 ≤ ba ∧ ba < i ∧
      (∀ j, 1 ≤ j → j < ba → bl < (att j).2) ∧
      (∀ j, 1 ≤ j → j < i → bl ≤ (att j).2)

lemma bestInv_step (att : Nat → List (Nat × ℚ) × ℚ) (i : Nat)
    (best : Option (List (Nat × ℚ) × ℚ × Nat)) (hinv : bestInv att i best) :
    bestInv att (i + 1) (updateBest att i best) := by
  match best with
  | none =>
      have hi : i = 1 := hinv
      refine ⟨rfl, by omega, by omega, by intro j h1 h2; omega, ?_⟩
      intro j h1 h2
      have hj : j = i := by omega
      rw [hj]
  | some (bv, bl, ba) =>
      obtain ⟨hba, h1ba, hbai, hlt, hle⟩ := hinv
      rw [updateBest]
      by_cases hc : (att i).2 < bl
      · rw [if_pos hc]
        refine ⟨rfl, by omega, by omega, ?_, ?_⟩
        · intro j h1 h2
          exact lt_of_lt_of_le hc (hle j h1 h2)
        · intro j h1 h2
          by_cases hji : j < i
          · exact le_of_lt (lt_of_lt_of_le hc (hle j h1 hji))
          · have hj : j = i := by omega
            rw [hj]
      · rw [if_neg hc]
        refine ⟨hba, h1ba, by omega, hlt, ?_⟩
        intro j h1 h2
        by_cases hji : j < i
        · exact hle j h1 hji
        · have hj : j = i := by omega
          rw [hj]
          exact not_lt.mp hc

lemma bestInv_some (att : Nat → List (Nat × ℚ) × ℚ) (i : Nat)
    (best : Option (List (Nat × ℚ) × ℚ × Nat)) (v : List (Nat × ℚ)) (l : ℚ) (a : Nat)
    (hinv : bestInv att i best) (h : best = some (v, l, a)) :
    (v, l) = att a ∧ 1 ≤ a ∧ a < i ∧ ∀ j, 1 ≤ j → j < a → l < (att j).2 := by
  subst h
  obtain ⟨hba, h1, h2, hlt, -⟩ := hinv
  exact ⟨hba, h1, h2, hlt⟩

lemma updateBest_isSome (att : Nat → List (Nat × ℚ) × ℚ) (i : Nat)
    (best : Option (List (Nat × ℚ) × ℚ × Nat)) :
    ∃ out, updateBest att i best = some out := by
  match best with
  | none => exact ⟨_, rfl⟩
  | some (bv, bl, ba) =>
      rw [updateBest]
      by_cases hc : (att i).2 < bl
      · rw [if_pos hc]; exact ⟨_, rfl⟩
      · rw [if_neg hc]; exact ⟨_, rfl⟩

lemma runTriesFrom_char (att : Nat → List (Nat × ℚ) × ℚ) :
    ∀ (n i : Nat) (best : Option (List (Nat × ℚ) × ℚ × Nat))
      (v : List (Nat × ℚ)) (l : ℚ) (a : Nat),
    bestInv att i best →
    runTriesFrom att i n best = some (v, l, a) →
    (v, l) = att a ∧ 1 ≤ a ∧ a < i + n ∧ (∀ j, 1 ≤ j → j < a → l < (att j).2) := by
  intro n
  induction n with
  | zero =>
      intro i best v l a hinv h
      rw [runTriesFrom] at h
      obtain ⟨hba, h1, h2, hlt⟩ := bestInv_some att i best v l a hinv h
      exact ⟨hba, h1, by omega, hlt⟩
  | succ n ih =>
      intro i best v l a hinv h
      rw [runTriesFrom] at h
      have hinv' := bestInv_step att i best hinv
      by_cases h0 : (att i).2 = 0
      · rw [if_pos h0] at h
        obtain ⟨hba, h1, h2, hlt⟩ :=
          bestInv_some att (i + 1) (updateBest att i best) v l a hinv' h
        exact ⟨hba, h1, by omega, hlt⟩
      · rw [if_neg h0] at h
        obtain ⟨hba, h1, h2, hlt⟩ := ih (i + 1) _ v l a hinv' h
        exact ⟨hba, h1, by omega, hlt⟩

lemma runTriesFrom_isSome (att : Nat → List (Nat × ℚ) × ℚ) :
    ∀ (n i : Nat) (best : Option (List (Nat × ℚ) × ℚ × Nat)),
    1 ≤ n ∨ (∃ out, best = some out) →
    ∃ out, runTriesFrom att i n best = some out := by
  intro n
  induction n with
  | zero =>
      intro i best h
      rcases h with h | ⟨out, hout⟩
      · omega
      · exact ⟨out, hout⟩
  | succ n ih =>
      intro i best h
      rw [runTriesFrom]
      by_cases h0 : (att i).2 = 0
      · rw [if_pos h0]
        exact updateBest_isSome att i best
      · rw [if_neg h0]
        exact ih (i + 1) (updateBest att i best) (Or.inr (updateBest_isSome att i best))

lemma runTriesFrom_mono (att : Nat → List (Nat × ℚ) × ℚ) :
    ∀ (n i : Nat) (best : Option (List (Nat × ℚ) × ℚ × Nat))
      (v : List (Nat × ℚ)) (l : ℚ) (a : Nat),
    runTriesFrom att i n best = some (v, l, a) →
    ∃ v' l' a', runTriesFrom att i (n + 1) best = some (v', l', a') ∧ l' ≤ l := by
  intro n
  induction n with
  | zero =>
      intro i best v l a h
      rw [runTriesFrom] at h
      rw [runTriesFrom]
      subst h
      by_cases h0 : (att i).2 = 0
      · rw [if_pos h0, updateBest]
        by_cases hc : (att i).2 < l
        · rw [if_pos hc]
          exact ⟨_, _, _, rfl, le_of_lt hc⟩
        · rw [if_neg hc]
          exact ⟨v, l, a, rfl, le_refl l⟩
      · rw [if_neg h0, runTriesFrom, updateBest]
        by_cases hc : (att i).2 < l
        · rw [if_pos hc]
          exact ⟨_, _, _, rfl, le_of_lt hc⟩
        · rw [if_neg hc]
          exact ⟨v, l, a, rfl, le_refl l⟩
  | succ n ih =>
      intro i best v l a h
      rw [runTriesFrom] at h
      rw [runTriesFrom]
      by_cases h0 : (att i).2 = 0
      · rw [if_pos h0] at h
        rw [if_pos h0]
        exact ⟨v, l, a, h, le_refl l⟩
      · rw [if_neg h0] at h
        rw [if_neg h0]
        exact ih (i + 1) (updateBest att i best) v l a h

lemma runTries_mono (att : Nat → List (Nat × ℚ) × ℚ) (m m' : Nat) (hmm : m ≤ m')
    (v : List (Nat × ℚ)) (l : ℚ) (a : Nat) (h : runTries att m = some (v, l, a)) :
    ∃ v' l' a', runTries att m' = some (v', l', a') ∧ l' ≤ l := by
  induction m' with
  | zero =>
      have hm0 : m = 0 := by omega
      subst hm0
      exact ⟨v, l, a, h, le_refl l⟩
  | succ k ih =>
      by_cases hk : m ≤ k
      · obtain ⟨v', l', a', h', hle⟩ := ih hk
        obtain ⟨v'', l'', a'', h'', hle'⟩ := runTriesFrom_mono att k 1 none v' l' a' h'
        exact ⟨v'', l'', a'', h'', le_trans hle' hle⟩
      · have hmk : m = k + 1 := by omega
        subst hmk
        exact ⟨v, l, a, h, le_refl l⟩

lemma runTriesFrom_stop (att : Nat → List (Nat × ℚ) × ℚ) (j : Nat)
    (hj : (att j).2 = 0) :
    ∀ (n i n' : Nat) (best : Option (List (Nat × ℚ) × ℚ × Nat)),
    i ≤ j → j < i + n → j < i + n' →
    (∀ k, i ≤ k → k < j → (att k).2 ≠ 0) →
    runTriesFrom att i n best = runTriesFrom att i n' best := by
  intro n
  induction n with
  | zero =>
      intro i n' best h1 h2
      omega
  | succ n ih =>
      intro i n' best h1 h2 h3 h4
      match n' with
      | 0 => omega
      | n'' + 1 =>
          rw [runTriesFrom]
          conv_rhs => rw [runTriesFrom]
          by_cases h0 : (att i).2 = 0
          · rw [if_pos h0, if_pos h0]
          · rw [if_neg h0, if_neg h0]
            have hij : i < j := by
              rcases Nat.lt_or_ge i j with h | h
              · exact h
              · have : i = j := by omega
                rw [this] at h0
                exact absurd hj h0
            exact ih (i + 1) n'' (updateBest att i best) (by omega) (by omega) (by omega)
              (fun k hk1 hk2 => h4 k (by omega) hk2)

/-- C7: across the attempts of `solve`'s try loop, the retained best is the
outcome of the earliest attempt with the minimum loss (an attempt replaces
the best only when strictly better, so every earlier attempt has strictly
larger loss); the retained best loss is non-increasing as the try budget
grows; the loop stops right after the first attempt whose loss is 0 (running
it with any larger budget returns the same result); and with at least one
try a best-effort result is always returned. -/
theorem solve_best_spec (att : Nat → List (Nat × ℚ) × ℚ) (m : Nat) (hm : 1 ≤ m) :
    (∃ v l a, runTries att m = some (v, l, a) ∧ (v, l) = att a ∧ 1 ≤ a ∧ a ≤ m ∧
      ∀ j, 1 ≤ j → j < a → l < (att j).2) ∧
    (∀ m' v l a v' l' a', m ≤ m' →
      runTries att m = some (v, l, a) → runTries att m' = some (v', l', a') → l' ≤ l) ∧
    (∀ j, 1 ≤ j → j ≤ m → (att j).2 = 0 →
      (∀ k, 1 ≤ k → k < j → (att k).2 ≠ 0) → runTries att m = runTries att j) := by
  refine ⟨?_, ?_, ?_⟩
  · obtain ⟨⟨v, l, a⟩, h⟩ := runTriesFrom_isSome att m 1 none (Or.inl hm)
    obtain ⟨hba, h1, h2, hlt⟩ := runTriesFrom_char att m 1 none v l a rfl h
    exact ⟨v, l, a, h, hba, h1, by omega, hlt⟩
  · intro m' v l a v' l' a' hmm h h'
    obtain ⟨v'', l'', a'', h'', hle⟩ := runTries_mono att m m' hmm v l a h
    rw [h'] at h''
    have hl : l' = l'' := congrArg (fun t => t.2.1) (Option.some.inj h'')
    rw [hl]
    exact hle
  · intro j h1 h2 hj hpre
    exact runTriesFrom_stop att j hj m 1 j none (by omega) (by omega) (by omega)
      (fun k hk1 hk2 => hpre k hk1 hk2)

/-- C7 witness: the try-loop theorem applied to a concrete attempt stream
(loss 2 on attempt 1, loss 0 afterwards) with a budget of 3 tries. -/
theorem solve_best_spec_wit :
    (∃ v l a, runTries (fun i => ([], if i = 1 then 2 else 0)) 3 = some (v, l, a) ∧
      (v, l) = (fun i => (([] : List (Nat × ℚ)), if i = 1 then (2 : ℚ) else 0)) a ∧
      1 ≤ a ∧ a ≤ 3 ∧
      ∀ j, 1 ≤ j → j < a →
        l < ((fun i => (([] : List (Nat × ℚ)), if i = 1 then (2 : ℚ) else 0)) j).2) ∧
    (∀ m' v l a v' l' a', 3 ≤ m' →
      runTries (fun i => ([], if i = 1 then 2 else 0)) 3 = some (v, l, a) →
      runTries (fun i => ([], if i = 1 then 2 else 0)) m' = some (v', l', a') → l' ≤ l) ∧
    (∀ j, 1 ≤ j → j ≤ 3 →
      ((fun i => (([] : List (Nat × ℚ)), if i = 1 then (2 : ℚ) else 0)) j).2 = 0 →
      (∀ k, 1 ≤ k → k < j →
        ((fun i => (([] : List (Nat × ℚ)), if i = 1 then (2 : ℚ) else 0)) k).2 ≠ 0) →
      runTries (fun i => ([], if i = 1 then 2 else 0)) 3 =
        runTries (fun i => ([], if i = 1 then 2 else 0)) j) :=
  solve_best_spec (fun i => ([], if i = 1 then 2 else 0)) 3 (by omega)

/-- Inner loop of `MLN._create_results` over one relation's unobserved rows:
read the solved value at the running cursor for each row in order, emitting
the row's first `arity` columns plus the value; a missing key is the
`KeyError` of `atom_values[next_index]`, modelled as `none`. -/
def projectRows (vals : List (Nat × ℚ)) (arity : Nat) :
    List (List ℚ) → Nat → Option (List (List ℚ))
  | [], _ => some []
  | row :: rest, nextIdx =>
      match lookupVal vals nextIdx with
      | none => none
      | some v =>
          (projectRows vals arity rest (nextIdx + 1)).map
            (fun rs => (row.take arity ++ [v]) :: rs)

/-- Outer loop of `MLN._create_results`: the cursor first skips the
relation's observed rows, the relation is skipped entirely (producing no
output entry) when it has no unobserved data, and the cursor then advances
past the unobserved rows. Output entries are keyed by relation position. -/
def createResultsGo (vals : List (Nat × ℚ)) :
    List Relation → Nat → Nat → Option (List (Nat × List (List ℚ)))
  | [], _, _ => some []
  | rel :: rest, rIdx, nextIdx =>
      if rel.unobserved.isEmpty then
        createResultsGo vals rest (rIdx + 1) (nextIdx + rel.observed.length)
      else
        match projectRows vals rel.arity rel.unobserved (nextIdx + rel.observed.length) with
        | none => none
        | some rows =>
            (createResultsGo vals rest (rIdx + 1)
                (nextIdx + rel.observed.length + rel.unobserved.length)).map
              (fun res => (rIdx, rows) :: res)

/-- `MLN._create_results` applied to the winning assignment. -/
def createResults (relations : List Relation) (vals : List (Nat × ℚ)) :
    Option (List (Nat × List (List ℚ))) :=
  createResultsGo vals relations 0 0

/-- Flat global index of local row `j` of the relation at position `r`:
the cumulated (observed + unobserved) counts of all earlier relations plus
`j`. -/
def flatIndex (relations : List Relation) (r j : Nat) : Nat :=
  ((relations.take r).map relCount).sum + j

lemma flatIndex_cons (hd : Relation) (tl : List Relation) (r j : Nat) :
    flatIndex (hd :: tl) (r + 1) j = relCount hd + flatIndex tl r j := by
  rw [flatIndex, flatIndex, List.take_succ_cons, List.map_cons, List.sum_cons]
  omega

lemma totalCount_cons (hd : Relation) (tl : List Relation) :
    totalCount (hd :: tl) = relCount hd + totalCount tl := by
  rw [totalCount, totalCount, List.map_cons, List.sum_cons]

lemma resolveAtom_flatIndex :
    ∀ (relations : List Relation) (r : Nat) (rel : Relation) (j : Nat),
    relations.get? r = some rel → j < relCount rel →
    resolveAtom relations (flatIndex relations r j) = some (r, rel, j) := by
  intro relations
  induction relations with
  | nil => intro r rel j h hj; simp at h
  | cons hd tl ih =>
      intro r rel j hget hj
      match r, hget with
      | 0, hget =>
          have hrel : hd = rel := Option.some.inj hget
          subst hrel
          have hfi : flatIndex (hd :: tl) 0 j = j := by
            rw [flatIndex]
            simp
          rw [hfi, resolveAtom, if_pos hj]
      | r' + 1, hget =>
          have hget' : tl.get? r' = some rel := hget
          rw [flatIndex_cons, resolveAtom]
          have hge : ¬ (relCount hd + flatIndex tl r' j < relCount hd) := by omega
          rw [if_neg hge]
          have hsub : relCount hd + flatIndex tl r' j - relCount hd = flatIndex tl r' j := by
            omega
          rw [hsub, ih r' rel j hget' hj]
          rfl

lemma flatIndex_lt :
    ∀ (relations : List Relation) (r : Nat) (rel : Relation) (j : Nat),
    relations.get? r = some rel → j < relCount rel →
    flatIndex relations r j < totalCount relations := by
  intro relations
  induction relations with
  | nil => intro r rel j h hj; simp at h
  | cons hd tl ih =>
      intro r rel j hget hj
      rw [totalCount_cons]
      match r, hget with
      | 0, hget =>
          have hrel : hd = rel := Option.some.inj hget
          subst hrel
          have hfi : flatIndex (hd :: tl) 0 j = j := by rw [flatIndex]; simp
          omega
      | r' + 1, hget =>
          have := ih r' rel j hget hj
          rw [flatIndex_cons]
          omega

lemma flatIndex_surj :
    ∀ (relations : List Relation) (x : Nat), x < totalCount relations →
    ∃ r rel j, relations.get? r = some rel ∧ j < relCount rel ∧
      flatIndex relations r j = x := by
  intro relations
  induction relations with
  | nil =>
      intro x h
      rw [totalCount] at h
      simp at h
  | cons hd tl ih =>
      intro x hx
      rw [totalCount_cons] at hx
      by_cases hlt : x < relCount hd
      · exact ⟨0, hd, x, rfl, hlt, by rw [flatIndex]; simp⟩
      · obtain ⟨r, rel, j, hget, hj, hfi⟩ := ih (x - relCount hd) (by omega)
        refine ⟨r + 1, rel, j, hget, hj, ?_⟩
        rw [flatIndex_cons]
        omega

lemma projectRows_get (vals : List (Nat × ℚ)) (arity : Nat) :
    ∀ (rows : List (List ℚ)) (start : Nat) (out : List (List ℚ)),
    projectRows vals arity rows start = some out →
    ∀ (j : Nat) (row : List ℚ), rows.get? j = some row →
    ∃ v, lookupVal vals (start + j) = some v ∧
      out.get? j = some (row.take arity ++ [v]) := by
  intro rows
  induction rows with
  | nil => intro start out h j row hj; simp at hj
  | cons r0 rest ih =>
      intro start out h j row hj
      rw [projectRows] at h
      match hl : lookupVal vals start with
      | none => rw [hl] at h; simp at h
      | some v0 =>
          rw [hl] at h
          match hrec : projectRows vals arity rest (start + 1) with
          | none => rw [hrec] at h; simp at h
          | some out' =>
              rw [hrec] at h
              simp only [Option.map_some'] at h
              have hout : out = (r0.take arity ++ [v0]) :: out' := (Option.some.inj h).symm
              subst hout
              match j, hj with
              | 0, hj =>
                  have hr : r0 = row := Option.some.inj hj
                  subst hr
                  exact ⟨v0, by rw [Nat.add_zero]; exact hl, rfl⟩
              | j' + 1, hj =>
                  obtain ⟨v, hv, hout'⟩ := ih (start + 1) out' hrec j' row hj
                  refine ⟨v, ?_, hout'⟩
                  rw [show start + (j' + 1) = start + 1 + j' by omega]
                  exact hv

lemma createResultsGo_agree (vals : List (Nat × ℚ)) :
    ∀ (rels : List Relation) (rIdx base : Nat) (res : List (Nat × List (List ℚ))),
    createResultsGo vals rels rIdx base = some res →
    ∀ (r : Nat) (rel : Relation), rels.get? r = some rel →
    ∀ (j : Nat) (row : List ℚ), rel.unobserved.get? j = some row →
    ∃ rows v, (rIdx + r, rows) ∈ res ∧
      lookupVal vals (base + flatIndex rels r (rel.observed.length + j)) = some v ∧
      rows.get? j = some (row.take rel.arity ++ [v]) := by
  intro rels
  induction rels with
  | nil => intro rIdx base res h r rel hget; simp at hget
  | cons hd tl ih =>
      intro rIdx base res h r rel hget j row hrow
      rw [createResultsGo] at h
      match r, hget with
      | 0, hget =>
          have hrel : hd = rel := Option.some.inj hget
          subst hrel
          have hne : ¬ hd.unobserved.isEmpty = true := by
            intro hemp
            rw [List.isEmpty_iff] at hemp
            rw [hemp] at hrow
            simp at hrow
          rw [if_neg hne] at h
          match hproj : projectRows vals hd.arity hd.unobserved (base + hd.observed.length) with
          | none => rw [hproj] at h; simp at h
          | some rows =>
              rw [hproj] at h
              match hrec : createResultsGo vals tl (rIdx + 1)
                  (base + hd.observed.length + hd.unobserved.length) with
              | none => rw [hrec] at h; simp at h
              | some res' =>
                  rw [hrec] at h
                  simp only [Option.map_some'] at h
                  have hres : res = (rIdx, rows) :: res' := (Option.some.inj h).symm
                  subst hres
                  obtain ⟨v, hv, hout⟩ := projectRows_get vals hd.arity hd.unobserved
                    (base + hd.observed.length) rows hproj j row hrow
                  refine ⟨rows, v, by rw [Nat.add_zero]; exact List.mem_cons_self _ _, ?_, hout⟩
                  have hfi : flatIndex (hd :: tl) 0 (hd.observed.length + j) =
                      hd.observed.length + j := by
                    rw [flatIndex]; simp
                  rw [hfi, show base + (hd.observed.length + j) =
                    base + hd.observed.length + j by omega]
                  exact hv
      | r' + 1, hget =>
          have hget' : tl.get? r' = some rel := hget
          have harith : base + flatIndex (hd :: tl) (r' + 1) (rel.observed.length + j) =
              base + relCount hd + flatIndex tl r' (rel.observed.length + j) := by
            rw [flatIndex_cons]
            omega
          by_cases hemp : hd.unobserved.isEmpty
          · rw [if_pos hemp] at h
            have hlen : hd.unobserved.length = 0 := by
              rw [List.isEmpty_iff] at hemp
              rw [hemp]
              rfl
            obtain ⟨rows, v, hmem, hv, hout⟩ :=
              ih (rIdx + 1) (base + hd.observed.length) res h r' rel hget' j row hrow
            refine ⟨rows, v, ?_, ?_, hout⟩
            · rw [show rIdx + (r' + 1) = rIdx + 1 + r' by omega]
              exact hmem
            · rw [harith, show base + relCount hd = base + hd.observed.length by
                rw [relCount]; omega]
              exact hv
          · rw [if_neg hemp] at h
            match hproj : projectRows vals hd.arity hd.unobserved (base + hd.observed.length) with
            | none => rw [hproj] at h; simp at h
            | some rows0 =>
                rw [hproj] at h
                match hrec : createResultsGo vals tl (rIdx + 1)
                    (base + hd.observed.length + hd.unobserved.length) with
                | none => rw [hrec] at h; simp at h
                | some res' =>
                    rw [hrec] at h
                    simp only [Option.map_some'] at h
                    have hres : res = (rIdx, rows0) :: res' := (Option.some.inj h).symm
                    subst hres
                    obtain ⟨rows, v, hmem, hv, hout⟩ :=
                      ih (rIdx + 1) (base + hd.observed.length + hd.unobserved.length)
                        res' hrec r' rel hget' j row hrow
                    refine ⟨rows, v, ?_, ?_, hout⟩
                    · rw [show rIdx + (r' + 1) = rIdx + 1 + r' by omega]
                      exact List.mem_cons_of_mem _ hmem
                    · rw [harith, show base + relCount hd =
                        base + hd.observed.length + hd.unobserved.length by
                        rw [relCount]; omega]
                      exact hv

/-- C8: the compiler's atom resolution and the projector's cursor agree on
the flat atom-index layout. First, whenever projection succeeds, the output
row for relation `r`'s unobserved row `j` is its argument columns plus the
value read at exactly `flatIndex relations r (observed + j)`, and the
compiler resolves that same index to relation `r`, local row `observed + j`
(an unobserved row, `j` past the observed block). Second, the map
`(r, j) ↦ flatIndex` hits exactly the valid index range `[0, totalCount)`,
`resolveAtom` inverts it, and it is injective — a bijection between valid
indices and (relation, row) pairs. -/
theorem index_layout_agreement (relations : List Relation) (vals : List (Nat × ℚ)) :
    (∀ res, createResults relations vals = some res →
      ∀ (r : Nat) (rel : Relation), relations.get? r = some rel →
      ∀ (j : Nat) (row : List ℚ), rel.unobserved.get? j = some row →
      ∃ rows v, (r, rows) ∈ res ∧
        lookupVal vals (flatIndex relations r (rel.observed.length + j)) = some v ∧
        rows.get? j = some (row.take rel.arity ++ [v]) ∧
        resolveAtom relations (flatIndex relations r (rel.observed.length + j)) =
          some (r, rel, rel.observed.length + j)) ∧
    (∀ (r : Nat) (rel : Relation) (j : Nat), relations.get? r = some rel →
      j < relCount rel →
      resolveAtom relations (flatIndex relations r j) = some (r, rel, j) ∧
      flatIndex relations r j < totalCount relations) ∧
    (∀ x, x < totalCount relations →
      ∃ r rel j, relations.get? r = some rel ∧ j < relCount rel ∧
        flatIndex relations r j = x) ∧
    (∀ (r : Nat) (rel : Relation) (j : Nat) (r' : Nat) (rel' : Relation) (j' : Nat),
      relations.get? r = some rel → j < relCount rel →
      relations.get? r' = some rel' → j' < relCount rel' →
      flatIndex relations r j = flatIndex relations r' j' → r = r' ∧ j = j') := by
  refine ⟨?_, ?_, flatIndex_surj relations, ?_⟩
  · intro res hres r rel hget j row hrow
    obtain ⟨rows, v, hmem, hv, hout⟩ :=
      createResultsGo_agree vals relations 0 0 res hres r rel hget j row hrow
    have hj : rel.observed.length + j < relCount rel := by
      have : j < rel.unobserved.length := by
        by_contra hcon
        rw [List.get?_eq_none.mpr (by omega)] at hrow
        exact Option.noConfusion hrow
      rw [relCount]
      omega
    refine ⟨rows, v, by rw [← Nat.zero_add r]; exact hmem, ?_, hout,
      resolveAtom_flatIndex relations r rel _ hget hj⟩
    rw [← Nat.zero_add (flatIndex relations r (rel.observed.length + j))]
    exact hv
  · intro r rel j hget hj
    exact ⟨resolveAtom_flatIndex relations r rel j hget hj,
      flatIndex_lt relations r rel j hget hj⟩
  · intro r rel j r' rel' j' hget hj hget' hj' heq
    have h1 := resolveAtom_flatIndex relations r rel j hget hj
    have h2 := resolveAtom_flatIndex relations r' rel' j' hget' hj'
    rw [heq, h2] at h1
    have h3 := Option.some.inj h1
    exact ⟨(congrArg (fun t => t.1) h3).symm, (congrArg (fun t => t.2.2) h3).symm⟩

/-- C8 witness: the layout theorem applied to one relation with one observed
and one unobserved row and the assignment storing value 5 at flat index 1:
the projector's single output row is the unobserved row's argument column
plus 5, read at flat index 1, which the resolver maps back to relation 0,
local row 1. -/
theorem index_layout_agreement_wit :
    (∃ rows v, (0, rows) ∈ [(0, [[2, 5]])] ∧
      lookupVal [(1, 5)] (flatIndex [⟨1, [[9, 1]], [[2]], none⟩] 0
        ((⟨1, [[9, 1]], [[2]], none⟩ : Relation).observed.length + 0)) = some v ∧
      rows.get? 0 = some (([2] : List ℚ).take 1 ++ [v]) ∧
      resolveAtom [⟨1, [[9, 1]], [[2]], none⟩] (flatIndex [⟨1, [[9, 1]], [[2]], none⟩] 0
        ((⟨1, [[9, 1]], [[2]], none⟩ : Relation).observed.length + 0)) =
        some (0, ⟨1, [[9, 1]], [[2]], none⟩,
          (⟨1, [[9, 1]], [[2]], none⟩ : Relation).observed.length + 0)) ∧
    (resolveAtom [⟨1, [[9, 1]], [[2]], none⟩] (flatIndex [⟨1, [[9, 1]], [[2]], none⟩] 0 1) =
      some (0, ⟨1, [[9, 1]], [[2]], none⟩, 1) ∧
      flatIndex [⟨1, [[9, 1]], [[2]], none⟩] 0 1 < totalCount [⟨1, [[9, 1]], [[2]], none⟩]) := by
  have h := index_layout_agreement [⟨1, [[9, 1]], [[2]], none⟩] [(1, 5)]
  refine ⟨?_, h.2.1 0 ⟨1, [[9, 1]], [[2]], none⟩ 1 rfl (by decide)⟩
  exact h.1 [(0, [[2, 5]])] (by rfl) 0 ⟨1, [[9, 1]], [[2]], none⟩ rfl 0 [2] rfl

/-- Attempt initialization of `MLN._inference_attempt`: one entry per key of
the grounding index, in key order. The random draws (negative-prior-biased
or uniform 0/1) are abstracted as the oracle `draw`. -/
def initAtomValues (draw : Nat → ℚ) (m : List (Nat × List Nat)) : List (Nat × ℚ) :=
  m.map (fun p => (p.1, draw p.1))

/-- The whole `MLN.solve` pipeline: compile the raw ground rules (any
compilation failure aborts before any attempt), run the try loop with the
attempt oracle, and project the winning assignment. -/
def solveModel (relations : List Relation) (weights : List (Option ℚ))
    (raws : List RawGroundRule)
    (att : CompileState → Nat → List (Nat × ℚ) × ℚ) (maxTries : Nat) :
    Option (List (Nat × List (List ℚ))) :=
  match processGroundRules relations weights raws initState with
  | none => none
  | some st =>
      match runTries (att st) maxTries with
      | none => none
      | some (vals, _, _) => createResults relations vals

lemma initAtomValues_key (draw : Nat → ℚ) (m : List (Nat × List Nat)) (a : Nat) :
    (∃ e ∈ initAtomValues draw m, e.1 = a) ↔ (∃ e ∈ m, e.1 = a) := by
  constructor
  · rintro ⟨e, he, hk⟩
    obtain ⟨p, hp, hpe⟩ := List.mem_map.mp he
    exact ⟨p, hp, by rw [← hk, ← hpe]⟩
  · rintro ⟨e, he, hk⟩
    refine ⟨(e.1, draw e.1), List.mem_map_of_mem _ he, hk⟩

lemma lookupVal_none {α : Type} :
    ∀ (l : List (Nat × α)) (a : Nat),
    lookupVal l a = none ↔ ¬ ∃ e ∈ l, e.1 = a := by
  intro l
  induction l with
  | nil => intro a; simp [lookupVal]
  | cons hd tl ih =>
      intro a
      obtain ⟨k, v⟩ := hd
      rw [lookupVal]
      by_cases hk : k = a
      · rw [if_pos hk]
        constructor
        · intro h; exact Option.noConfusion h
        · intro h; exact absurd ⟨(k, v), List.mem_cons_self _ _, hk⟩ h
      · rw [if_neg hk, ih]
        constructor
        · intro h
          rintro ⟨e, he, hea⟩
          rcases List.mem_cons.mp he with he' | he'
          · rw [he'] at hea
            exact hk hea
          · exact h ⟨e, he', hea⟩
        · intro h
          rintro ⟨e, he, hea⟩
          exact h ⟨e, List.mem_cons_of_mem _ he, hea⟩

lemma addAtomRule_key :
    ∀ (m : List (Nat × List Nat)) (a ri x : Nat),
    (∃ e ∈ addAtomRule m a ri, e.1 = x) ↔ ((∃ e ∈ m, e.1 = x) ∨ x = a) := by
  intro m
  induction m with
  | nil =>
      intro a ri x
      rw [addAtomRule]
      constructor
      · rintro ⟨e, he, hk⟩
        rcases List.mem_cons.mp he with he' | he'
        · rw [he'] at hk
          exact Or.inr hk.symm
        · simp at he'
      · rintro (⟨e, he, -⟩ | hx)
        · simp at he
        · exact ⟨(a, [ri]), List.mem_cons_self _ _, hx.symm⟩
  | cons hd tl ih =>
      intro a ri x
      obtain ⟨k, rs⟩ := hd
      rw [addAtomRule]
      by_cases hk : k = a
      · rw [if_pos hk]
        constructor
        · rintro ⟨e, he, hke⟩
          rcases List.mem_cons.mp he with he' | he'
          · rw [he'] at hke
            exact Or.inl ⟨(k, rs), List.mem_cons_self _ _, hke⟩
          · exact Or.inl ⟨e, List.mem_cons_of_mem _ he', hke⟩
        · rintro (⟨e, he, hke⟩ | hx)
          · rcases List.mem_cons.mp he with he' | he'
            · refine ⟨(k, rs ++ [ri]), List.mem_cons_self _ _, ?_⟩
              rw [he'] at hke
              exact hke
            · exact ⟨e, List.mem_cons_of_mem _ he', hke⟩
          · exact ⟨(k, rs ++ [ri]), List.mem_cons_self _ _, by rw [hx, hk]⟩
      · rw [if_neg hk]
        constructor
        · rintro ⟨e, he, hke⟩
          rcases List.mem_cons.mp he with he' | he'
          · exact Or.inl ⟨(k, rs), List.mem_cons_self _ _, by rw [he'] at hke; exact hke⟩
          · rcases (ih a ri x).mp ⟨e, he', hke⟩ with ⟨e', he'', hke''⟩ | hx
            · exact Or.inl ⟨e', List.mem_cons_of_mem _ he'', hke''⟩
            · exact Or.inr hx
        · rintro (⟨e, he, hke⟩ | hx)
          · rcases List.mem_cons.mp he with he' | he'
            · exact ⟨(k, rs), List.mem_cons_self _ _, by rw [he'] at hke; exact hke⟩
            · obtain ⟨e', he'', hke''⟩ := (ih a ri x).mpr (Or.inl ⟨e, he', hke⟩)
              exact ⟨e', List.mem_cons_of_mem _ he'', hke''⟩
          · obtain ⟨e', he'', hke''⟩ := (ih a ri x).mpr (Or.inr hx)
            exact ⟨e', List.mem_cons_of_mem _ he'', hke''⟩

lemma foldl_addAtomRule_key (ri : Nat) :
    ∀ (atoms : List Nat) (m : List (Nat × List Nat)) (x : Nat),
    (∃ e ∈ atoms.foldl (fun acc a => addAtomRule acc a ri) m, e.1 = x) ↔
      ((∃ e ∈ m, e.1 = x) ∨ x ∈ atoms) := by
  intro atoms
  induction atoms with
  | nil => intro m x; simp
  | cons a rest ih =>
      intro m x
      rw [List.foldl_cons, ih, addAtomRule_key, List.mem_cons]
      exact or_assoc

/-- The coupling between grounding index and compiled rules: an atom is a key
of the index exactly when it occurs in some retained compiled rule. -/
def mapKeysMatch (st : CompileState) : Prop :=
  ∀ x, (∃ e ∈ st.atomGroundingMap, e.1 = x) ↔ ∃ gr ∈ st.groundRules, x ∈ gr.atoms

lemma processOneRule_keys (relations : List Relation) (weights : List (Option ℚ))
    (st : CompileState) (raw : RawGroundRule) (st' : CompileState)
    (h : processOneRule relations weights st raw = some st')
    (hst : mapKeysMatch st) : mapKeysMatch st' := by
  rw [processOneRule] at h
  match hw : resolveWeight weights raw.ruleIndex with
  | none => rw [hw] at h; exact Option.noConfusion h
  | some w =>
      rw [hw] at h
      match hfold : foldRuleAtoms relations raw.operator (raw.atoms.zip raw.coefficients)
          raw.constant st.negativePriors with
      | none => rw [hfold] at h; exact Option.noConfusion h
      | some (atoms, coefficients, k, nps, skip) =>
          rw [hfold] at h
          simp only [] at h
          by_cases hskip : skip = true
          · rw [if_pos hskip] at h
            have hst' : st' = ⟨st.groundRules, st.atomGroundingMap, nps⟩ :=
              (Option.some.inj h).symm
            subst hst'
            exact hst
          · rw [if_neg hskip] at h
            match hmk : mkGroundRule w atoms coefficients k raw.operator with
            | none => rw [hmk] at h; exact Option.noConfusion h
            | some gr =>
                rw [hmk] at h
                have hgr : gr.atoms = atoms := by
                  rw [mkGroundRule] at hmk
                  by_cases hop : raw.operator = "|" ∨ raw.operator = "="
                  · rw [if_pos hop] at hmk
                    rw [← Option.some.inj hmk]
                  · rw [if_neg hop] at hmk
                    exact Option.noConfusion hmk
                have hst' : st' = ⟨st.groundRules ++ [gr],
                    atoms.foldl (fun acc a => addAtomRule acc a st.groundRules.length)
                      st.atomGroundingMap, nps⟩ := (Option.some.inj h).symm
                subst hst'
                intro x
                rw [foldl_addAtomRule_key, hst x]
                constructor
                · rintro (⟨gr', hgr', hx⟩ | hx)
                  · exact ⟨gr', List.mem_append_left _ hgr', hx⟩
                  · exact ⟨gr, List.mem_append_right _ (List.mem_singleton.mpr rfl),
                      by rw [hgr]; exact hx⟩
                · rintro ⟨gr', hgr', hx⟩
                  rcases List.mem_append.mp hgr' with hmem | hmem
                  · exact Or.inl ⟨gr', hmem, hx⟩
                  · rw [List.mem_singleton.mp hmem] at hx
                    rw [hgr] at hx
                    exact Or.inr hx

lemma processGroundRules_keys (relations : List Relation) (weights : List (Option ℚ)) :
    ∀ (raws : List RawGroundRule) (st st' : CompileState),
    processGroundRules relations weights raws st = some st' →
    mapKeysMatch st → mapKeysMatch st' := by
  intro raws
  induction raws with
  | nil =>
      intro st st' h hst
      rw [processGroundRules] at h
      rw [← Option.some.inj h]
      exact hst
  | cons raw rest ih =>
      intro st st' h hst
      rw [processGroundRules] at h
      match hpo : processOneRule relations weights st raw with
      | none => rw [hpo] at h; exact Option.noConfusion h
      | some st2 =>
          rw [hpo] at h
          exact ih st2 st' h (processOneRule_keys relations weights st raw st2 hpo hst)

lemma createResultsGo_missing (vals : List (Nat × ℚ)) :
    ∀ (rels : List Relation) (rIdx base : Nat) (r : Nat) (rel : Relation) (j : Nat),
    rels.get? r = some rel → j < rel.unobserved.length →
    lookupVal vals (base + flatIndex rels r (rel.observed.length + j)) = none →
    createResultsGo vals rels rIdx base = none := by
  intro rels
  induction rels with
  | nil => intro rIdx base r rel j h hj hlook; simp at h
  | cons hd tl ih =>
      intro rIdx base r rel j hget hj hlook
      rw [createResultsGo]
      match r, hget with
      | 0, hget =>
          have hrel : hd = rel := Option.some.inj hget
          subst hrel
          have hne : ¬ hd.unobserved.isEmpty = true := by
            intro hemp
            rw [List.isEmpty_iff] at hemp
            rw [hemp] at hj
            simp at hj
          rw [if_neg hne]
          match hproj : projectRows vals hd.arity hd.unobserved (base + hd.observed.length) with
          | none => rfl
          | some rows =>
              exfalso
              obtain ⟨row, hrow⟩ : ∃ row, hd.unobserved.get? j = some row :=
                ⟨_, List.get?_eq_get hj⟩
              obtain ⟨v, hv, -⟩ := projectRows_get vals hd.arity hd.unobserved
                (base + hd.observed.length) rows hproj j row hrow
              have hfi : flatIndex (hd :: tl) 0 (hd.observed.length + j) =
                  hd.observed.length + j := by rw [flatIndex]; simp
              rw [hfi, show base + (hd.observed.length + j) =
                base + hd.observed.length + j by omega, hv] at hlook
              exact Option.noConfusion hlook
      | r' + 1, hget =>
          have hget' : tl.get? r' = some rel := hget
          have harith : base + flatIndex (hd :: tl) (r' + 1) (rel.observed.length + j) =
              base + relCount hd + flatIndex tl r' (rel.observed.length + j) := by
            rw [flatIndex_cons]
            omega
          rw [harith] at hlook
          by_cases hemp : hd.unobserved.isEmpty
          · rw [if_pos hemp]
            have hlen : hd.unobserved.length = 0 := by
              rw [List.isEmpty_iff] at hemp
              rw [hemp]
              rfl
            refine ih (rIdx + 1) (base + hd.observed.length) r' rel j hget' hj ?_
            rw [show base + hd.observed.length + flatIndex tl r' (rel.observed.length + j) =
              base + relCount hd + flatIndex tl r' (rel.observed.length + j) by
              rw [relCount]; omega]
            exact hlook
          · rw [if_neg hemp]
            match hproj : projectRows vals hd.arity hd.unobserved (base + hd.observed.length) with
            | none => rfl
            | some rows0 =>
                have hrec : createResultsGo vals tl (rIdx + 1)
                    (base + hd.observed.length + hd.unobserved.length) = none := by
                  refine ih (rIdx + 1) (base + hd.observed.length + hd.unobserved.length)
                    r' rel j hget' hj ?_
                  rw [show base + hd.observed.length + hd.unobserved.length +
                    flatIndex tl r' (rel.observed.length + j) =
                    base + relCount hd + flatIndex tl r' (rel.observed.length + j) by
                    rw [relCount]; omega]
                  exact hlook
                rw [hrec]
                rfl

/-- C10: the solver's assignment is keyed exactly by the grounding index,
whose keys are exactly the atoms occurring in some retained compiled rule;
hence when a relation's unobserved row has a flat atom index that occurs in
no retained rule, the projector's key lookup for that row fails and result
projection returns the failure (`KeyError`) instead of producing the row. -/
theorem assignment_domain_projection (relations : List Relation)
    (weights : List (Option ℚ)) (raws : List RawGroundRule) (st' : CompileState)
    (hp : processGroundRules relations weights raws initState = some st') :
    (∀ (draw : Nat → ℚ) (a : Nat),
      (∃ e ∈ initAtomValues draw st'.atomGroundingMap, e.1 = a) ↔
        ∃ gr ∈ st'.groundRules, a ∈ gr.atoms) ∧
    (∀ (vals : List (Nat × ℚ)) (r : Nat) (rel : Relation) (j : Nat),
      relations.get? r = some rel → j < rel.unobserved.length →
      lookupVal vals (flatIndex relations r (rel.observed.length + j)) = none →
      createResults relations vals = none) ∧
    (∀ (draw : Nat → ℚ) (r : Nat) (rel : Relation) (j : Nat),
      relations.get? r = some rel → j < rel.unobserved.length →
      (¬ ∃ gr ∈ st'.groundRules,
        flatIndex relations r (rel.observed.length + j) ∈ gr.atoms) →
      createResults relations (initAtomValues draw st'.atomGroundingMap) = none) := by
  have hkeys : mapKeysMatch st' :=
    processGroundRules_keys relations weights raws initState st' hp
      (by intro x; simp [initState])
  have hmiss : ∀ (vals : List (Nat × ℚ)) (r : Nat) (rel : Relation) (j : Nat),
      relations.get? r = some rel → j < rel.unobserved.length →
      lookupVal vals (flatIndex relations r (rel.observed.length + j)) = none →
      createResults relations vals = none := by
    intro vals r rel j hget hj hlook
    refine createResultsGo_missing vals relations 0 0 r rel j hget hj ?_
    rw [Nat.zero_add]
    exact hlook
  refine ⟨fun draw a => (initAtomValues_key draw _ a).trans (hkeys a), hmiss, ?_⟩
  intro draw r rel j hget hj hnone
  refine hmiss _ r rel j hget hj ?_
  rw [lookupVal_none]
  intro hkey
  exact hnone ((hkeys _).mp ((initAtomValues_key draw _ _).mp hkey))

/-- C10 witness: one relation with a single unobserved row and an empty rule
stream — the grounding index is empty, the assignment is empty, and result
projection fails with the key-lookup error. -/
theorem assignment_domain_projection_wit :
    createResults [⟨1, [], [[2]], none⟩]
      (initAtomValues (fun _ => 0) initState.atomGroundingMap) = none :=
  (assignment_domain_projection [⟨1, [], [[2]], none⟩] [] [] initState rfl).2.2
    (fun _ => 0) 0 ⟨1, [], [[2]], none⟩ 0 rfl (by decide)
    (by rintro ⟨gr, hgr, -⟩; simp [initState] at hgr)

lemma foldRuleAtoms_no_skip (relations : List Relation) (op : String) (hop : op ≠ "|") :
    ∀ (l : List (Nat × ℚ)) (k : ℚ) (nps : List (Nat × Option ℚ))
      (as : List Nat) (cs : List ℚ) (k' : ℚ) (nps' : List (Nat × Option ℚ)) (sk : Bool),
    foldRuleAtoms relations op l k nps = some (as, cs, k', nps', sk) → sk = false := by
  intro l
  induction l with
  | nil =>
      intro k nps as cs k' nps' sk h
      rw [foldRuleAtoms] at h
      have := Option.some.inj h
      exact (congrArg (fun t => t.2.2.2.2) this).symm
  | cons hd tl ih =>
      obtain ⟨a, c⟩ := hd
      intro k nps as cs k' nps' sk h
      rw [foldRuleAtoms] at h
      match hfa : fetchAtom relations a with
      | none => rw [hfa] at h; exact Option.noConfusion h
      | some (observed, optValue, negPrior) =>
          rw [hfa] at h
          match observed, optValue with
          | true, none => simp at h
          | true, some v =>
              simp only [if_true] at h
              have hnc : ¬ (op = "|" ∧ ((c = 1 ∧ v = 0) ∨ (c = -1 ∧ v = 1))) := by
                rintro ⟨hx, -⟩
                exact hop hx
              rw [if_neg hnc] at h
              exact ih (k - c * v) nps as cs k' nps' sk h
          | false, ov =>
              simp only [Bool.false_eq_true, if_false] at h
              match hrec : foldRuleAtoms relations op tl k (setNegPrior nps a negPrior) with
              | none => rw [hrec] at h; exact Option.noConfusion h
              | some (as2, cs2, k2, nps2, sk2) =>
                  rw [hrec] at h
                  simp only [Option.map_some'] at h
                  have hsk : sk = sk2 :=
                    (congrArg (fun t => t.2.2.2.2) (Option.some.inj h)).symm
                  rw [hsk]
                  exact ih k (setNegPrior nps a negPrior) as2 cs2 k2 nps2 sk2 hrec

lemma processOneRule_badop (relations : List Relation) (weights : List (Option ℚ))
    (st : CompileState) (raw : RawGroundRule)
    (hop : raw.operator ≠ "|") (hop2 : raw.operator ≠ "=") :
    processOneRule relations weights st raw = none := by
  rw [processOneRule]
  match hw : resolveWeight weights raw.ruleIndex with
  | none => rfl
  | some w =>
      match hfold : foldRuleAtoms relations raw.operator (raw.atoms.zip raw.coefficients)
          raw.constant st.negativePriors with
      | none => rfl
      | some (as, cs, k, nps, sk) =>
          have hsk : sk = false :=
            foldRuleAtoms_no_skip relations raw.operator hop _ _ _ _ _ _ _ _ hfold
          subst hsk
          have hmk : mkGroundRule w as cs k raw.operator = none := by
            rw [mkGroundRule, if_neg]
            rintro (hx | hx)
            · exact hop hx
            · exact hop2 hx
          simp only [Bool.false_eq_true, if_false, hmk]

lemma processGroundRules_badop (relations : List Relation) (weights : List (Option ℚ)) :
    ∀ (raws : List RawGroundRule) (st : CompileState),
    (∃ raw ∈ raws, raw.operator ≠ "|" ∧ raw.operator ≠ "=") →
    processGroundRules relations weights raws st = none := by
  intro raws
  induction raws with
  | nil => intro st h; simp at h
  | cons raw rest ih =>
      intro st h
      rw [processGroundRules]
      by_cases hbad : raw.operator ≠ "|" ∧ raw.operator ≠ "="
      · rw [processOneRule_badop relations weights st raw hbad.1 hbad.2]
        rfl
      · have hrest : ∃ r ∈ rest, r.operator ≠ "|" ∧ r.operator ≠ "=" := by
          obtain ⟨r, hr, hrop⟩ := h
          rcases List.mem_cons.mp hr with hr' | hr'
          · rw [← hr'] at hbad
            exact absurd hrop hbad
          · exact ⟨r, hr', hrop⟩
        match hpo : processOneRule relations weights st raw with
        | none => rfl
        | some st2 =>
            show (some st2).bind (processGroundRules relations weights rest) = none
            exact ih st2 hrest

/-- C9: a raw ground rule whose operator is neither the disjunction nor the
equality tag makes compilation fail (the constructor's assertion): rule
processing returns the failure, and the whole solve pipeline returns that
failure whatever attempt oracle and try budget it would have used — the
search never starts, and the rule is neither ignored nor kept with zero
weight. -/
theorem bad_operator_fatal (relations : List Relation) (weights : List (Option ℚ))
    (raws : List RawGroundRule)
    (h : ∃ raw ∈ raws, raw.operator ≠ "|" ∧ raw.operator ≠ "=") :
    processGroundRules relations weights raws initState = none ∧
    ∀ (att : CompileState → Nat → List (Nat × ℚ) × ℚ) (maxTries : Nat),
      solveModel relations weights raws att maxTries = none := by
  have hp := processGroundRules_badop relations weights raws initState h
  refine ⟨hp, fun att maxTries => ?_⟩
  rw [solveModel, hp]

/-- C9 witness: a single raw rule with operator "+" aborts processing and the
whole pipeline, for the concrete constant attempt oracle and one try. -/
theorem bad_operator_fatal_wit :
    processGroundRules [] [some 1] [⟨0, [], [], 0, "+"⟩] initState = none ∧
    solveModel [] [some 1] [⟨0, [], [], 0, "+"⟩] (fun _ _ => ([], 0)) 1 = none := by
  have h := bad_operator_fatal [] [some 1] [⟨0, [], [], 0, "+"⟩]
    ⟨⟨0, [], [], 0, "+"⟩, List.mem_cons_self _ _, by decide, by decide⟩
  exact ⟨h.1, h.2 (fun _ _ => ([], 0)) 1⟩

end MLN
